import Mathlib

/-
Verification of the DPLL SAT solver in sat_solver.py against its design
specification.  The Python code is shallowly embedded: literals are signed
integers (`Int`), clauses are literal lists, a formula is a clause list, and
the partial assignment dictionary `Dict[int, bool]` is an association list in
insertion order.  The recursive search `SATSolver.dpll` is embedded with an
explicit fuel parameter (the Python function has no such parameter; fuel
exhaustion is modelled as the outer `none`, and the development proves that
the fuel used by `solve` — one more than the number of distinct variables —
is never exhausted, which is the spec's termination argument).
-/

set_option maxHeartbeats 1000000

namespace SatSolver

/-- Python dict `self.assignments : Dict[int, bool]`, keyed by the variable
(the literal's absolute value), kept as an association list in insertion
order. -/
abbrev Assignment := List (Nat × Bool)

/-- One clause: the Python `List[int]` of signed literals. -/
abbrev Clause := List Int

/-- One formula: the Python `List[List[int]]`. -/
abbrev Formula := List (List Int)

/-- Python `assignments.get(var)`: the value bound to `v`, if any (first
binding wins, matching dict lookup on duplicate-free lists). -/
def getVar (a : Assignment) (v : Nat) : Option Bool :=
  (a.find? (fun p => p.1 == v)).map (fun p => p.2)

/-- Python `assignments[var] = value`: overwrite in place when the key is
present (dicts keep the key's position), append at the end otherwise. -/
def setVar (a : Assignment) (v : Nat) (b : Bool) : Assignment :=
  if a.any (fun p => p.1 == v) then a.map (fun p => if p.1 == v then (v, b) else p)
  else a ++ [(v, b)]

/-- The test on line 55 of sat_solver.py: literal `l` evaluates to true under
the current assignment (`(literal > 0 and val) or (literal < 0 and not val)`
with `val = assignments.get(abs(literal))`); an unassigned variable never
satisfies a literal. -/
def litSat (a : Assignment) (l : Int) : Bool :=
  match getVar a l.natAbs with
  | some val => (decide (0 < l) && val) || (decide (l < 0) && !val)
  | none => false

/-- The inner loop of `SATSolver.simplify_clauses` for one clause: `none`
when some literal is satisfied (the Python `satisfied = True; break`),
otherwise the clause with the falsified (assigned) literals dropped and the
unassigned literals kept in order. -/
def simplify_clause (a : Assignment) : Clause → Option Clause
  | [] => some []
  | l :: rest =>
    match getVar a l.natAbs with
    | some val =>
      if (decide (0 < l) && val) || (decide (l < 0) && !val) then none
      else simplify_clause a rest
    | none => (simplify_clause a rest).map (fun c => l :: c)

/-- Python `SATSolver.simplify_clauses`: satisfied clauses are dropped, every
surviving clause (possibly empty) is kept, in order. -/
def simplify_clauses (clauses : Formula) (a : Assignment) : Formula :=
  clauses.filterMap (simplify_clause a)

/-- Python `SATSolver.find_unit_clause`: the first clause with exactly one
literal, returned as (variable, polarity). -/
def find_unit_clause : Formula → Option (Nat × Bool)
  | [] => none
  | [l] :: _ => some (l.natAbs, decide (0 < l))
  | _ :: rest => find_unit_clause rest

/-- All (variable, polarity) literal occurrences of the formula in traversal
order (clauses left to right, literals left to right), as collected into the
`counts` dictionary by `SATSolver.find_pure_literal`. -/
def polarities (clauses : Formula) : List (Nat × Bool) :=
  (clauses.map (fun c => c.map (fun l => (l.natAbs, decide (0 < l))))).flatten

/-- Distinct elements in order of first occurrence, skipping elements already
seen: the key order of a Python dict filled by the traversal. -/
def firstVarsAux : List Nat → List Nat → List Nat
  | [], _ => []
  | v :: rest, seen =>
    if v ∈ seen then firstVarsAux rest seen else v :: firstVarsAux rest (v :: seen)

/-- The distinct elements of a list in order of first occurrence: the key
order of a Python dict filled by that list. -/
def firstVars (l : List Nat) : List Nat := firstVarsAux l []

/-- The second loop of `SATSolver.find_pure_literal`: walk the dict keys in
insertion order and return the first variable whose recorded polarity set is
a singleton, together with that polarity. -/
def findPureFrom (ps : List (Nat × Bool)) : List Nat → Option (Nat × Bool)
  | [] => none
  | v :: vs =>
    let pols := ((ps.filter (fun p => p.1 == v)).map (fun p => p.2))
    if pols.all (fun b => b == true) then some (v, true)
    else if pols.all (fun b => b == false) then some (v, false)
    else findPureFrom ps vs

/-- Python `SATSolver.find_pure_literal`. -/
def find_pure_literal (clauses : Formula) : Option (Nat × Bool) :=
  findPureFrom (polarities clauses) (firstVars ((polarities clauses).map Prod.fst))

/-- All variable occurrences of the formula in traversal order. -/
def allVars (clauses : Formula) : List Nat :=
  (clauses.map (fun c => c.map Int.natAbs)).flatten

/-- The variable occurrences counted by the `frequency` dictionary of
`SATSolver.choose_variable`: occurrences of currently unassigned variables,
in traversal order. -/
def unassignedVars (clauses : Formula) (a : Assignment) : List Nat :=
  (allVars clauses).filter (fun v => (getVar a v).isNone)

/-- Python `max(frequency, key=frequency.get)` over keys `k :: ks` with
multiplicities taken in `occs`: the running best is replaced only on a
strictly greater count, so the first maximum in key order wins. -/
def pickMax (occs : List Nat) (k : Nat) (ks : List Nat) : Nat :=
  ks.foldl (fun best w => if occs.count w > occs.count best then w else best) k

/-- Python `SATSolver.choose_variable`: the most frequent unassigned variable
(first wins on ties), or variable 1 when no unassigned variable occurs. -/
def choose_variable (clauses : Formula) (a : Assignment) : Nat :=
  match firstVars (unassignedVars clauses a) with
  | [] => 1
  | k :: ks => pickMax (unassignedVars clauses a) k ks

/-- Python `SATSolver.dpll` with an explicit fuel parameter.  The body is a
literal transcription of lines 13-44 of sat_solver.py: the local rebinding
`clauses = self.simplify_clauses(clauses, assignments)` is rendered by
applying `simplify_clauses clauses assignments` wherever the rebound local is
used, including as the clause argument of every recursive call.  `none` is
fuel exhaustion (no Python counterpart), `some none` is Python `None`
(UNSAT), `some (some r)` is a returned assignment. -/
def dpll : Nat → Formula → Assignment → Option (Option Assignment)
  | 0, _, _ => none
  | fuel + 1, clauses, assignments =>
    if (simplify_clauses clauses assignments).isEmpty then some (some assignments)
    else if (simplify_clauses clauses assignments).any (fun c => c.isEmpty) then some none
    else
      match find_unit_clause (simplify_clauses clauses assignments) with
      | some (v, b) => dpll fuel (simplify_clauses clauses assignments) (setVar assignments v b)
      | none =>
        match find_pure_literal (simplify_clauses clauses assignments) with
        | some (v, b) => dpll fuel (simplify_clauses clauses assignments) (setVar assignments v b)
        | none =>
          match dpll fuel (simplify_clauses clauses assignments)
              (setVar assignments (choose_variable (simplify_clauses clauses assignments) assignments) true) with
          | some (some r) => some (some r)
          | some none => dpll fuel (simplify_clauses clauses assignments)
              (setVar assignments (choose_variable (simplify_clauses clauses assignments) assignments) false)
          | none => none

/-- The distinct variables of the formula, in order of first occurrence. -/
def varList (clauses : Formula) : List Nat := firstVars (allVars clauses)

/-- Python `SATSolver.solve`: run `dpll` on the stored clauses with the empty
assignment.  The fuel is one more than the number of distinct variables; the
termination theorem shows it is never exhausted. -/
def solve (clauses : Formula) : Option (Option Assignment) :=
  dpll ((varList clauses).length + 1) clauses []

/-- The search procedure exactly as §4.2 of the spec words it: the recursive
call after a propagation or branching step re-simplifies from the original
formula under the cumulative assignment (the clause argument of every
recursive call is the unchanged input formula), so the assignment is the only
threaded state. -/
def dpllSpec : Nat → Formula → Assignment → Option (Option Assignment)
  | 0, _, _ => none
  | fuel + 1, f, a =>
    if (simplify_clauses f a).isEmpty then some (some a)
    else if (simplify_clauses f a).any (fun c => c.isEmpty) then some none
    else
      match find_unit_clause (simplify_clauses f a) with
      | some (v, b) => dpllSpec fuel f (setVar a v b)
      | none =>
        match find_pure_literal (simplify_clauses f a) with
        | some (v, b) => dpllSpec fuel f (setVar a v b)
        | none =>
          match dpllSpec fuel f (setVar a (choose_variable (simplify_clauses f a) a) true) with
          | some (some r) => some (some r)
          | some none => dpllSpec fuel f (setVar a (choose_variable (simplify_clauses f a) a) false)
          | none => none

/-- The simplifier contract exactly as §4.1 of the spec words it: drop every
clause containing a literal that evaluates to true under the assignment; in
each surviving clause keep exactly the literals on unassigned variables,
verbatim and in their original relative order (so falsified literals are
removed and a clause that becomes empty is kept). -/
def specSimplify (clauses : Formula) (a : Assignment) : Formula :=
  (clauses.filter (fun c => !(c.any (fun l => litSat a l)))).map
    (fun c => c.filter (fun l => (getVar a l.natAbs).isNone))

/-- One assignment extends another: every binding of the first is a binding
of the second. -/
def Extends (a a' : Assignment) : Prop :=
  ∀ v x, getVar a v = some x → getVar a' v = some x

/-- Truth of a literal under a total assignment of the variables. -/
def litSatT (t : Nat → Bool) (l : Int) : Bool :=
  (decide (0 < l) && t l.natAbs) || (decide (l < 0) && !(t l.natAbs))

/-- A total assignment agrees with a partial one. -/
def Agrees (t : Nat → Bool) (a : Assignment) : Prop :=
  ∀ v x, getVar a v = some x → t v = x

/-- The distinct variables of the formula, as a finite set. -/
def varsOf (clauses : Formula) : Finset Nat := (allVars clauses).toFinset

/-- The number of distinct variables of the formula left unassigned: the
measure bounding the recursion depth of `dpll`. -/
def freeCount (clauses : Formula) (a : Assignment) : Nat :=
  ((varsOf clauses).filter (fun v => getVar a v = none)).card

/-- All lists of `n` booleans: the brute-force enumeration of the `2 ^ n`
total assignments of variables `1 .. n`. -/
def allBitLists : Nat → List (List Bool)
  | 0 => [[]]
  | n + 1 => ((allBitLists n).map (fun bs => [true :: bs, false :: bs])).flatten

/-- The total assignment encoded by a bit list: variable `v` reads bit
`v - 1`, out-of-range variables read false. -/
def tOf (bits : List Bool) : Nat → Bool :=
  fun v => bits.getD (v - 1) false


/-- Python str.strip() on a line (lines modelled as character lists): drop
leading and trailing whitespace. -/
def pstrip (l : List Char) : List Char :=
  ((l.dropWhile Char.isWhitespace).reverse.dropWhile Char.isWhitespace).reverse

/-- Python str.startswith(c) for a single character. -/
def startsChar (l : List Char) (c : Char) : Bool :=
  decide (l.head? = some c)

/-- Helper of `pysplit`: the pending (reversed) token is flushed at every
whitespace run and at the end of the line. -/
def pysplitAux : List Char → List Char → List (List Char)
  | [], acc => if acc.isEmpty then [] else [acc.reverse]
  | c :: rest, acc =>
    if c.isWhitespace then
      if acc.isEmpty then pysplitAux rest [] else acc.reverse :: pysplitAux rest []
    else pysplitAux rest (c :: acc)

/-- Python str.split() with no separator: split on whitespace runs, never
producing empty tokens. -/
def pysplit (l : List Char) : List (List Char) := pysplitAux l []

/-- Decimal value of a digit list (little helper of `pint`). -/
def digitsVal (ds : List Char) : Nat :=
  ds.foldl (fun n c => n * 10 + (c.toNat - 48)) 0

/-- Decimal digits to a number; `none` on the empty list or a non-digit. -/
def digitsToNat (ds : List Char) : Option Nat :=
  if ds ≠ [] ∧ ds.all Char.isDigit then some (digitsVal ds) else none

/-- Python int(token) on a whitespace-free token: an optional sign followed
by decimal digits; `none` models the ValueError raised on anything else. -/
def pint : List Char → Option Int
  | [] => none
  | c :: rest =>
    if c = '-' then (digitsToNat rest).map (fun n => -(n : Int))
    else if c = '+' then (digitsToNat rest).map (fun n => (n : Int))
    else (digitsToNat (c :: rest)).map (fun n => (n : Int))

/-- The exceptions `parse_dimacs` can raise, by source message: the two
ValueError calls on lines 112 and 118 of sat_solver.py, and the ValueError
propagated out of `int()` on a malformed integer token. -/
inductive ParseError where
  | invalidProblemLine : ParseError
  | clauseNotTerminated : ParseError
  | invalidIntLiteral : ParseError
deriving DecidableEq

deriving instance DecidableEq for Except

/-- The loop of Python `parse_dimacs` (lines 105-119 of sat_solver.py) over
the lines of the input, threading the clause accumulator and the current
`num_vars`.  Blank and comment lines are skipped; a problem line must have
four tokens with tag cnf (its declared clause count is read into a comment
only and never used); any other line is integer literals whose last element
must be the terminator 0, which is dropped.  Raised exceptions are
`Except.error`; the empty-token-list IndexError of `literals[-1]` cannot
occur (a stripped non-blank line has at least one token) and is folded into
the missing-terminator error. -/
def parseLines : List (List Char) → List (List Int) → Int →
    Except ParseError (List (List Int) × Int)
  | [], acc, nv => .ok (acc, nv)
  | line :: rest, acc, nv =>
    if (pstrip line).isEmpty || startsChar (pstrip line) 'c' then
      parseLines rest acc nv
    else if startsChar (pstrip line) 'p' then
      if (pysplit (pstrip line)).length != 4
          || !(decide ((pysplit (pstrip line)).getD 1 [] = ['c', 'n', 'f'])) then
        .error .invalidProblemLine
      else
        match pint ((pysplit (pstrip line)).getD 2 []) with
        | none => .error .invalidIntLiteral
        | some n => parseLines rest acc n
    else
      match (pysplit (pstrip line)).mapM pint with
      | none => .error .invalidIntLiteral
      | some lits =>
        if decide (lits.getLast? = some 0) then
          parseLines rest (acc ++ [lits.dropLast]) nv
        else .error .clauseNotTerminated

/-- Python `parse_dimacs`, the input already split into its lines (the
`dimacs.splitlines()` of the caller): clause accumulator starts empty and
`num_vars` starts at 0. -/
def parse_dimacs (lines : List (List Char)) : Except ParseError (List (List Int) × Int) :=
  parseLines lines [] 0

/-- Modelled from the source: neither `parse_dimacs` (lines 102-120 of
sat_solver.py) nor any caller contains a statement that emits a warning —
the declared clause count is read into a comment only — so the diagnostics
produced while parsing are empty for every input. -/
def parse_warnings : List (List Char) → List String := fun _ => []

/-- The `num_vars` contribution of one line, as the spec describes it: a
well-formed problem line overwrites the running value with its declared
variable count, every other line leaves it unchanged. -/
def pStep (nv : Int) (line : List Char) : Int :=
  if (pstrip line).isEmpty || startsChar (pstrip line) 'c' then nv
  else if startsChar (pstrip line) 'p' then
    match pint ((pysplit (pstrip line)).getD 2 []) with
    | some n => n
    | none => nv
  else nv

/-- The declared variable count the spec expects `parse_dimacs` to return:
the last problem line wins, 0 when there is none. -/
def declaredVarsSpec (lines : List (List Char)) : Int := lines.foldl pStep 0

/-- A problem line `parse_dimacs` accepts: four tokens, tag cnf, parseable
variable count. -/
def goodProblemLine (l : List Char) : Bool :=
  ((pysplit l).length == 4) && decide ((pysplit l).getD 1 [] = ['c', 'n', 'f'])
    && (pint ((pysplit l).getD 2 [])).isSome

/-- A clause line `parse_dimacs` accepts: every token an integer, the last
one the terminator 0. -/
def goodClauseLine (l : List Char) : Bool :=
  match (pysplit l).mapM pint with
  | none => false
  | some lits => decide (lits.getLast? = some 0)

/-- A line `parse_dimacs` gets through without raising: blank, comment, or
a well-formed problem/clause line.  Nothing here relates the declared clause
count of a problem line to the number of clause lines. -/
def goodLine (line : List Char) : Bool :=
  if (pstrip line).isEmpty || startsChar (pstrip line) 'c' then true
  else if startsChar (pstrip line) 'p' then goodProblemLine (pstrip line)
  else goodClauseLine (pstrip line)

/-- A formula on which the search must branch at the root: no unit clause,
no pure literal. -/
def branchFormula : Formula := [[1, 2], [-1, -2], [1, -2], [-1, 2]]

/-- A DIMACS input whose problem line declares 5 clauses while 2 clause
lines follow. -/
def mismatchLines : List (List Char) :=
  [("p cnf 2 5").toList, ("1 2 0").toList, ("-1 0").toList]

/-- An input with no problem line whose single clause line lacks the
terminating 0. -/
def noZeroLines : List (List Char) := [("1 2").toList]

/-- An input with two problem lines; the second declares 3 variables. -/
def twoPLines : List (List Char) :=
  [("p cnf 1 1").toList, ("p cnf 3 1").toList, ("1 0").toList]

theorem getVar_cons (p : Nat × Bool) (a : Assignment) (v : Nat) :
    getVar (p :: a) v = if p.1 = v then some p.2 else getVar a v := by
  by_cases h : p.1 = v
  · rw [getVar, List.find?_cons_of_pos _ (by simp [h]), if_pos h]; rfl
  · rw [getVar, List.find?_cons_of_neg _ (by simp [h]), if_neg h]; rfl

theorem any_key_eq_isSome (a : Assignment) (v : Nat) :
    a.any (fun p => p.1 == v) = (getVar a v).isSome := by
  induction a with
  | nil => rfl
  | cons p rest ih =>
    rw [List.any_cons, getVar_cons]
    by_cases h : p.1 = v <;> simp [h, ih]

theorem getVar_replace_ne (a : Assignment) (v : Nat) (b : Bool) (w : Nat) (h : w ≠ v) :
    getVar (a.map (fun p => if p.1 == v then (v, b) else p)) w = getVar a w := by
  induction a with
  | nil => rfl
  | cons p rest ih =>
    by_cases hp : p.1 = v
    · have hrep : (if p.1 == v then ((v, b) : Nat × Bool) else p) = (v, b) := by
        simp [hp]
      rw [List.map_cons, hrep, getVar_cons, getVar_cons, ih]
      have h1 : ¬ (((v, b) : Nat × Bool).1 = w) := fun e => h (by simpa using e.symm)
      have h2 : ¬ (p.1 = w) := by rw [hp]; exact fun e => h e.symm
      rw [if_neg h1, if_neg h2]
    · have hrep : (if p.1 == v then ((v, b) : Nat × Bool) else p) = p := by
        simp [hp]
      rw [List.map_cons, hrep, getVar_cons, getVar_cons, ih]

theorem getVar_replace_eq (a : Assignment) (v : Nat) (b : Bool)
    (h : (getVar a v).isSome) :
    getVar (a.map (fun p => if p.1 == v then (v, b) else p)) v = some b := by
  induction a with
  | nil => simp [getVar] at h
  | cons p rest ih =>
    by_cases hp : p.1 = v
    · have hrep : (if p.1 == v then ((v, b) : Nat × Bool) else p) = (v, b) := by
        simp [hp]
      rw [List.map_cons, hrep, getVar_cons, if_pos (show ((v, b) : Nat × Bool).1 = v from rfl)]
    · have hrep : (if p.1 == v then ((v, b) : Nat × Bool) else p) = p := by
        simp [hp]
      rw [getVar_cons, if_neg hp] at h
      rw [List.map_cons, hrep, getVar_cons, if_neg hp]
      exact ih h

theorem getVar_append_single (a : Assignment) (v : Nat) (b : Bool) (w : Nat)
    (h : getVar a v = none) :
    getVar (a ++ [(v, b)]) w = if w = v then some b else getVar a w := by
  induction a with
  | nil =>
    rw [List.nil_append, getVar_cons]
    by_cases hw : w = v
    · rw [if_pos (show ((v, b) : Nat × Bool).1 = w from hw.symm), if_pos hw]
    · rw [if_neg (show ¬ (((v, b) : Nat × Bool).1 = w) from fun e => hw e.symm), if_neg hw]
  | cons p rest ih =>
    rw [getVar_cons] at h
    by_cases hp : p.1 = v
    · rw [if_pos hp] at h; simp at h
    · rw [if_neg hp] at h
      rw [List.cons_append, getVar_cons, getVar_cons, ih h]
      by_cases hw : p.1 = w
      · rw [if_pos hw, if_pos hw, if_neg (show ¬ w = v from fun he => hp (hw.trans he))]
      · rw [if_neg hw, if_neg hw]

theorem getVar_setVar (a : Assignment) (v : Nat) (b : Bool) (w : Nat) :
    getVar (setVar a v b) w = if w = v then some b else getVar a w := by
  unfold setVar
  by_cases h : a.any (fun p => p.1 == v) = true
  · rw [if_pos h]
    rw [any_key_eq_isSome] at h
    by_cases hw : w = v
    · subst hw; rw [if_pos rfl]; exact getVar_replace_eq a w b h
    · rw [if_neg hw]; exact getVar_replace_ne a v b w hw
  · rw [if_neg h]
    rw [any_key_eq_isSome] at h
    exact getVar_append_single a v b w (Option.not_isSome_iff_eq_none.mp h)

theorem extends_refl (a : Assignment) : Extends a a := fun _ _ h => h

theorem extends_trans {a b c : Assignment} (h1 : Extends a b) (h2 : Extends b c) :
    Extends a c := fun v x h => h2 v x (h1 v x h)

theorem extends_setVar {a : Assignment} {v : Nat} (b : Bool) (h : getVar a v = none) :
    Extends a (setVar a v b) := by
  intro w x hw
  rw [getVar_setVar]
  by_cases hv : w = v
  · subst hv; rw [hw] at h; cases h
  · rw [if_neg hv]; exact hw

theorem agrees_setVar {t : Nat → Bool} {a : Assignment} {v : Nat} {b : Bool}
    (ht : Agrees t a) (hv : t v = b) : Agrees t (setVar a v b) := by
  intro w x hw
  rw [getVar_setVar] at hw
  by_cases hvw : w = v
  · rw [if_pos hvw] at hw; cases hw; rw [hvw]; exact hv
  · rw [if_neg hvw] at hw; exact ht w x hw

theorem litSat_of_assigned {a a' : Assignment} {l : Int} {val : Bool}
    (hval : getVar a l.natAbs = some val) (h : Extends a a') :
    litSat a' l = litSat a l := by
  simp only [litSat, hval, h _ _ hval]

theorem litSat_mono {a a' : Assignment} {l : Int} (h : Extends a a')
    (hs : litSat a l = true) : litSat a' l = true := by
  cases hval : getVar a l.natAbs with
  | none => simp [litSat, hval] at hs
  | some val => rw [litSat_of_assigned hval h]; exact hs

theorem simplify_clause_eq (a : Assignment) (c : Clause) :
    simplify_clause a c =
      if c.any (fun l => litSat a l) then none
      else some (c.filter (fun l => (getVar a l.natAbs).isNone)) := by
  induction c with
  | nil => simp [simplify_clause]
  | cons l rest ih =>
    rw [simplify_clause, List.any_cons, List.filter_cons]
    cases hg : getVar a l.natAbs with
    | some val =>
      have hls : litSat a l = ((decide (0 < l) && val) || (decide (l < 0) && !val)) := by
        simp [litSat, hg]
      by_cases hc : ((decide (0 < l) && val) || (decide (l < 0) && !val)) = true
      · simp [hc, hls]
      · have hc' : litSat a l = false := by rw [hls]; exact Bool.not_eq_true _ |>.mp hc
        simp only [hc', Bool.false_or, if_neg hc, ih, hg, Option.isSome_some,
          Option.isNone_some, Bool.false_eq_true, if_false]
    | none =>
      have hc' : litSat a l = false := by simp [litSat, hg]
      simp only [hc', Bool.false_or, hg, Option.isNone_none, if_true, ih]
      by_cases hr : rest.any (fun l => litSat a l) = true
      · simp [hr]
      · simp [Bool.not_eq_true _ |>.mp hr]

theorem simplify_clause_none_iff (a : Assignment) (c : Clause) :
    simplify_clause a c = none ↔ c.any (fun l => litSat a l) = true := by
  rw [simplify_clause_eq]
  by_cases h : c.any (fun l => litSat a l) = true <;> simp [h]

theorem simplify_clause_some {a : Assignment} {c c' : Clause}
    (h : simplify_clause a c = some c') :
    c' = c.filter (fun l => (getVar a l.natAbs).isNone) ∧
      c.any (fun l => litSat a l) = false := by
  rw [simplify_clause_eq] at h
  by_cases hc : c.any (fun l => litSat a l) = true
  · rw [if_pos hc] at h; cases h
  · rw [if_neg hc] at h
    exact ⟨(Option.some_inj.mp h).symm, Bool.not_eq_true _ |>.mp hc⟩

theorem mem_of_mem_simplify_clause {a : Assignment} {c c' : Clause} {l : Int}
    (h : simplify_clause a c = some c') (hl : l ∈ c') :
    l ∈ c ∧ getVar a l.natAbs = none := by
  rcases simplify_clause_some h with ⟨rfl, -⟩
  rcases List.mem_filter.mp hl with ⟨hm, hu⟩
  exact ⟨hm, Option.isNone_iff_eq_none.mp hu⟩

theorem mem_simplify_clauses {cs : Formula} {a : Assignment} {c' : Clause} :
    c' ∈ simplify_clauses cs a ↔ ∃ c ∈ cs, simplify_clause a c = some c' :=
  List.mem_filterMap

theorem simplify_clauses_nil {cs : Formula} {a : Assignment}
    (h : simplify_clauses cs a = []) : ∀ c ∈ cs, simplify_clause a c = none :=
  List.filterMap_eq_nil_iff.mp h

theorem unassigned_of_mem_simplify {cs : Formula} {a : Assignment} {c' : Clause} {l : Int}
    (hc : c' ∈ simplify_clauses cs a) (hl : l ∈ c') : getVar a l.natAbs = none := by
  rcases mem_simplify_clauses.mp hc with ⟨c, -, hsc⟩
  exact (mem_of_mem_simplify_clause hsc hl).2

theorem filter_unassigned_twice {a a' : Assignment} (h : Extends a a') (c : Clause) :
    (c.filter (fun l => (getVar a l.natAbs).isNone)).filter
        (fun l => (getVar a' l.natAbs).isNone) =
      c.filter (fun l => (getVar a' l.natAbs).isNone) := by
  induction c with
  | nil => rfl
  | cons l rest ih =>
    cases hg : getVar a l.natAbs with
    | none =>
      rw [List.filter_cons, if_pos (by simp [hg]), List.filter_cons, List.filter_cons, ih]
    | some val =>
      have hg' : getVar a' l.natAbs = some val := h _ _ hg
      rw [List.filter_cons, if_neg (by simp [hg]), List.filter_cons,
        if_neg (by simp [hg']), ih]

theorem any_litSat_filter {a a' : Assignment} (h : Extends a a') {c : Clause}
    (hfalse : c.any (fun l => litSat a l) = false) :
    (c.filter (fun l => (getVar a l.natAbs).isNone)).any (fun l => litSat a' l) =
      c.any (fun l => litSat a' l) := by
  induction c with
  | nil => rfl
  | cons l rest ih =>
    rw [List.any_cons, Bool.or_eq_false_iff] at hfalse
    cases hg : getVar a l.natAbs with
    | none =>
      rw [List.filter_cons, if_pos (by simp [hg]), List.any_cons, List.any_cons,
        ih hfalse.2]
    | some val =>
      have hls : litSat a' l = litSat a l := litSat_of_assigned hg h
      rw [List.filter_cons, if_neg (by simp [hg]), List.any_cons, hls, hfalse.1,
        Bool.false_or, ih hfalse.2]

theorem simplify_clause_comp_none {a a' : Assignment} (h : Extends a a') {c : Clause}
    (hn : simplify_clause a c = none) : simplify_clause a' c = none := by
  rw [simplify_clause_none_iff] at hn ⊢
  rcases List.any_eq_true.mp hn with ⟨l, hl, hs⟩
  exact List.any_eq_true.mpr ⟨l, hl, litSat_mono h hs⟩

theorem simplify_clause_comp_some {a a' : Assignment} (h : Extends a a') {c c1 : Clause}
    (hs : simplify_clause a c = some c1) :
    simplify_clause a' c1 = simplify_clause a' c := by
  rcases simplify_clause_some hs with ⟨rfl, hfalse⟩
  rw [simplify_clause_eq, simplify_clause_eq a' c, any_litSat_filter h hfalse,
    filter_unassigned_twice h]

theorem simplify_clauses_comp {a a' : Assignment} (h : Extends a a') (cs : Formula) :
    simplify_clauses (simplify_clauses cs a) a' = simplify_clauses cs a' := by
  induction cs with
  | nil => rfl
  | cons c rest ih =>
    have ih' : List.filterMap (simplify_clause a') (List.filterMap (simplify_clause a) rest) =
        List.filterMap (simplify_clause a') rest := ih
    show List.filterMap (simplify_clause a')
        (List.filterMap (simplify_clause a) (c :: rest)) =
      List.filterMap (simplify_clause a') (c :: rest)
    rw [List.filterMap_cons]
    cases hc : simplify_clause a c with
    | none =>
      rw [List.filterMap_cons, simplify_clause_comp_none h hc, ih']
    | some c1 =>
      rw [List.filterMap_cons, List.filterMap_cons, simplify_clause_comp_some h hc, ih']

theorem simplify_clauses_idem (cs : Formula) (a : Assignment) :
    simplify_clauses (simplify_clauses cs a) a = simplify_clauses cs a :=
  simplify_clauses_comp (extends_refl a) cs

theorem dpll_congr {F G : Formula} {a : Assignment} (fuel : Nat)
    (h : simplify_clauses F a = simplify_clauses G a) :
    dpll (fuel + 1) F a = dpll (fuel + 1) G a := by
  simp only [dpll, h]

theorem dpll_drop_simplify {a a' : Assignment} (h : Extends a a') (fuel : Nat)
    (F : Formula) :
    dpll fuel (simplify_clauses F a) a' = dpll fuel F a' := by
  cases fuel with
  | zero => rfl
  | succ g => exact dpll_congr g (simplify_clauses_comp h F)

theorem mem_allVars {cs : Formula} {v : Nat} :
    v ∈ allVars cs ↔ ∃ c ∈ cs, ∃ l ∈ c, l.natAbs = v := by
  rw [allVars, List.mem_flatten]
  constructor
  · rintro ⟨cc, hcc, hv⟩
    rcases List.mem_map.mp hcc with ⟨c, hc, rfl⟩
    rcases List.mem_map.mp hv with ⟨l, hl, rfl⟩
    exact ⟨c, hc, l, hl, rfl⟩
  · rintro ⟨c, hc, l, hl, rfl⟩
    exact ⟨c.map Int.natAbs, List.mem_map_of_mem _ hc, List.mem_map_of_mem _ hl⟩

theorem mem_varsOf {cs : Formula} {v : Nat} :
    v ∈ varsOf cs ↔ ∃ c ∈ cs, ∃ l ∈ c, l.natAbs = v := by
  rw [varsOf, List.mem_toFinset, mem_allVars]

theorem varsOf_simplify_subset (cs : Formula) (a : Assignment) :
    varsOf (simplify_clauses cs a) ⊆ varsOf cs := by
  intro v hv
  rcases mem_varsOf.mp hv with ⟨c', hc', l, hl, hv'⟩
  rcases mem_simplify_clauses.mp hc' with ⟨c, hc, hsc⟩
  exact mem_varsOf.mpr ⟨c, hc, l, (mem_of_mem_simplify_clause hsc hl).1, hv'⟩

theorem mem_polarities {cs : Formula} {v : Nat} {pb : Bool} :
    (v, pb) ∈ polarities cs ↔ ∃ c ∈ cs, ∃ l ∈ c, l.natAbs = v ∧ decide (0 < l) = pb := by
  rw [polarities, List.mem_flatten]
  constructor
  · rintro ⟨cc, hcc, hv⟩
    rcases List.mem_map.mp hcc with ⟨c, hc, rfl⟩
    rcases List.mem_map.mp hv with ⟨l, hl, he⟩
    obtain ⟨h1, h2⟩ := Prod.mk.injEq _ _ _ _ ▸ he
    exact ⟨c, hc, l, hl, h1, h2⟩
  · rintro ⟨c, hc, l, hl, hv, hb⟩
    exact ⟨c.map (fun l => (l.natAbs, decide (0 < l))), List.mem_map_of_mem _ hc,
      List.mem_map.mpr ⟨l, hl, by rw [hv, hb]⟩⟩

theorem find_unit_spec : ∀ {cs : Formula} {v : Nat} {b : Bool},
    find_unit_clause cs = some (v, b) →
    ∃ l : Int, [l] ∈ cs ∧ v = l.natAbs ∧ b = decide (0 < l) := by
  intro cs
  induction cs with
  | nil => intro v b h; cases h
  | cons c rest ih =>
    intro v b h
    match c with
    | [] =>
      rcases ih h with ⟨l, hl, hv, hb⟩
      exact ⟨l, List.mem_cons_of_mem _ hl, hv, hb⟩
    | [l] =>
      rw [find_unit_clause] at h
      rcases Prod.mk.injEq _ _ _ _ ▸ Option.some_inj.mp h with ⟨hv, hb⟩
      exact ⟨l, List.mem_cons_self _ _, hv.symm, hb.symm⟩
    | l1 :: l2 :: c' =>
      rcases ih h with ⟨l, hl, hv, hb⟩
      exact ⟨l, List.mem_cons_of_mem _ hl, hv, hb⟩

theorem mem_firstVarsAux : ∀ (l seen : List Nat) (v : Nat),
    v ∈ firstVarsAux l seen ↔ v ∈ l ∧ v ∉ seen := by
  intro l
  induction l with
  | nil => intro seen v; simp [firstVarsAux]
  | cons w rest ih =>
    intro seen v
    rw [firstVarsAux]
    by_cases hw : w ∈ seen
    · rw [if_pos hw, ih]
      constructor
      · rintro ⟨h1, h2⟩; exact ⟨List.mem_cons_of_mem _ h1, h2⟩
      · rintro ⟨h1, h2⟩
        rcases List.mem_cons.mp h1 with rfl | h1
        · exact absurd hw h2
        · exact ⟨h1, h2⟩
    · rw [if_neg hw, List.mem_cons]
      constructor
      · rintro (rfl | hm)
        · exact ⟨List.mem_cons_self _ _, hw⟩
        · rcases (ih _ v).mp hm with ⟨h1, h2⟩
          exact ⟨List.mem_cons_of_mem _ h1,
            fun hv => h2 (List.mem_cons_of_mem _ hv)⟩
      · rintro ⟨h1, h2⟩
        by_cases hvw : v = w
        · exact Or.inl hvw
        · rcases List.mem_cons.mp h1 with rfl | h1
          · exact absurd rfl hvw
          · refine Or.inr ((ih _ v).mpr ⟨h1, ?_⟩)
            intro hv
            rcases List.mem_cons.mp hv with rfl | hv
            · exact hvw rfl
            · exact h2 hv

theorem mem_firstVars {l : List Nat} {v : Nat} : v ∈ firstVars l ↔ v ∈ l := by
  rw [firstVars, mem_firstVarsAux]
  simp

theorem firstVars_eq_nil_iff {l : List Nat} : firstVars l = [] ↔ l = [] := by
  match l with
  | [] => simp [firstVars, firstVarsAux]
  | v :: rest => simp [firstVars, firstVarsAux]

theorem findPureFrom_spec {ps : List (Nat × Bool)} :
    ∀ {keys : List Nat} {v : Nat} {b : Bool}, findPureFrom ps keys = some (v, b) →
    v ∈ keys ∧ ∀ p ∈ ps, p.1 = v → p.2 = b := by
  intro keys
  induction keys with
  | nil => intro v b h; cases h
  | cons k rest ih =>
    intro v b h
    rw [findPureFrom] at h
    by_cases h1 : ((ps.filter (fun p => p.1 == k)).map (fun p => p.2)).all
        (fun b => b == true) = true
    · rw [if_pos h1] at h
      rcases Prod.mk.injEq _ _ _ _ ▸ Option.some_inj.mp h with ⟨hv, hb⟩
      subst hv; subst hb
      refine ⟨List.mem_cons_self _ _, fun p hp hpv => ?_⟩
      have := List.all_eq_true.mp h1 p.2
        (List.mem_map.mpr ⟨p, List.mem_filter.mpr ⟨hp, by simp [hpv]⟩, rfl⟩)
      simpa using this
    · rw [if_neg h1] at h
      by_cases h2 : ((ps.filter (fun p => p.1 == k)).map (fun p => p.2)).all
          (fun b => b == false) = true
      · rw [if_pos h2] at h
        rcases Prod.mk.injEq _ _ _ _ ▸ Option.some_inj.mp h with ⟨hv, hb⟩
        subst hv; subst hb
        refine ⟨List.mem_cons_self _ _, fun p hp hpv => ?_⟩
        have := List.all_eq_true.mp h2 p.2
          (List.mem_map.mpr ⟨p, List.mem_filter.mpr ⟨hp, by simp [hpv]⟩, rfl⟩)
        simpa using this
      · rw [if_neg h2] at h
        rcases ih h with ⟨hk, hall⟩
        exact ⟨List.mem_cons_of_mem _ hk, hall⟩

theorem find_pure_spec {cs : Formula} {v : Nat} {b : Bool}
    (h : find_pure_literal cs = some (v, b)) :
    (∃ c ∈ cs, ∃ l ∈ c, l.natAbs = v) ∧
      (∀ c ∈ cs, ∀ l ∈ c, l.natAbs = v → decide (0 < l) = b) := by
  rcases findPureFrom_spec h with ⟨hmem, hall⟩
  constructor
  · have := mem_firstVars.mp hmem
    rcases List.mem_map.mp this with ⟨p, hp, hfst⟩
    rcases mem_polarities.mp (show (p.1, p.2) ∈ polarities cs from hp) with
      ⟨c, hc, l, hl, hv, -⟩
    exact ⟨c, hc, l, hl, by rw [hv, hfst]⟩
  · intro c hc l hl hv
    exact hall (l.natAbs, decide (0 < l)) (mem_polarities.mpr ⟨c, hc, l, hl, rfl, rfl⟩) hv

theorem pickMax_cons (occs : List Nat) (k w : Nat) (ws : List Nat) :
    pickMax occs k (w :: ws) =
      pickMax occs (if occs.count w > occs.count k then w else k) ws := rfl

theorem pickMax_spec (occs : List Nat) :
    ∀ (ks : List Nat) (k : Nat),
    ∃ pre post, k :: ks = pre ++ pickMax occs k ks :: post ∧
      (∀ w ∈ pre, occs.count w < occs.count (pickMax occs k ks)) ∧
      (∀ w ∈ post, occs.count w ≤ occs.count (pickMax occs k ks)) := by
  intro ks
  induction ks with
  | nil =>
    intro k
    exact ⟨[], [], rfl, by simp, by simp⟩
  | cons w ws ih =>
    intro k
    rw [pickMax_cons]
    by_cases hc : occs.count w > occs.count k
    · rw [if_pos hc]
      rcases ih w with ⟨pre, post, hdec, hpre, hpost⟩
      cases pre with
      | nil =>
        rw [List.nil_append] at hdec
        have h1 : w = pickMax occs w ws := (List.cons.injEq _ _ _ _ ▸ hdec).1
        have h2 : ws = post := (List.cons.injEq _ _ _ _ ▸ hdec).2
        refine ⟨[k], post, ?_, ?_, hpost⟩
        · rw [List.cons_append, List.nil_append, ← h1, ← h2]
        · intro u hu
          rcases List.mem_singleton.mp hu with rfl
          exact lt_of_lt_of_le hc (le_of_eq (congrArg occs.count h1))
      | cons p pre' =>
        rw [List.cons_append] at hdec
        have h1 : w = p := (List.cons.injEq _ _ _ _ ▸ hdec).1
        have h2 : ws = pre' ++ pickMax occs w ws :: post :=
          (List.cons.injEq _ _ _ _ ▸ hdec).2
        have hwlt : occs.count w < occs.count (pickMax occs w ws) := by
          have hx := hpre p (List.mem_cons_self _ _)
          rw [← h1] at hx; exact hx
        refine ⟨k :: p :: pre', post, ?_, ?_, hpost⟩
        · rw [List.cons_append, List.cons_append, ← h1, ← h2]
        · intro u hu
          rcases List.mem_cons.mp hu with rfl | hu
          · exact lt_trans hc hwlt
          · exact hpre u hu
    · rw [if_neg hc]
      have hle : occs.count w ≤ occs.count k := Nat.le_of_not_lt hc
      rcases ih k with ⟨pre, post, hdec, hpre, hpost⟩
      cases pre with
      | nil =>
        rw [List.nil_append] at hdec
        have h1 : k = pickMax occs k ws := (List.cons.injEq _ _ _ _ ▸ hdec).1
        have h2 : ws = post := (List.cons.injEq _ _ _ _ ▸ hdec).2
        refine ⟨[], w :: ws, ?_, by simp, ?_⟩
        · rw [List.nil_append, ← h1]
        · intro u hu
          rcases List.mem_cons.mp hu with rfl | hu
          · exact le_trans hle (le_of_eq (congrArg occs.count h1))
          · exact hpost u (h2 ▸ hu)
      | cons p pre' =>
        rw [List.cons_append] at hdec
        have h1 : k = p := (List.cons.injEq _ _ _ _ ▸ hdec).1
        have h2 : ws = pre' ++ pickMax occs k ws :: post :=
          (List.cons.injEq _ _ _ _ ▸ hdec).2
        have hklt : occs.count k < occs.count (pickMax occs k ws) := by
          have hx := hpre p (List.mem_cons_self _ _)
          rw [← h1] at hx; exact hx
        refine ⟨k :: w :: pre', post, ?_, ?_, hpost⟩
        · rw [List.cons_append, List.cons_append, ← h2]
        · intro u hu
          rcases List.mem_cons.mp hu with rfl | hu
          · exact hklt
          · rcases List.mem_cons.mp hu with rfl | hu
            · exact lt_of_le_of_lt hle hklt
            · exact hpre u (List.mem_cons_of_mem _ hu)

theorem pickMax_mem (occs : List Nat) (k : Nat) (ks : List Nat) :
    pickMax occs k ks ∈ k :: ks := by
  rcases pickMax_spec occs ks k with ⟨pre, post, hdec, -, -⟩
  rw [hdec]
  exact List.mem_append_right _ (List.mem_cons_self _ _)

theorem mem_unassignedVars {cs : Formula} {a : Assignment} {v : Nat} :
    v ∈ unassignedVars cs a ↔ v ∈ allVars cs ∧ getVar a v = none := by
  rw [unassignedVars, List.mem_filter]
  simp [Option.isNone_iff_eq_none]

theorem choose_variable_mem {cs : Formula} {a : Assignment}
    (h : unassignedVars cs a ≠ []) :
    choose_variable cs a ∈ unassignedVars cs a := by
  cases hf : firstVars (unassignedVars cs a) with
  | nil => exact absurd (firstVars_eq_nil_iff.mp hf) h
  | cons k ks =>
    have hch : choose_variable cs a = pickMax (unassignedVars cs a) k ks := by
      rw [choose_variable, hf]
    rw [hch]
    have := pickMax_mem (unassignedVars cs a) k ks
    rw [← hf] at this
    exact mem_firstVars.mp this

theorem unassignedVars_simplify_ne {cs : Formula} {a : Assignment}
    (h1 : (simplify_clauses cs a).isEmpty = false)
    (h2 : (simplify_clauses cs a).any (fun c => c.isEmpty) = false) :
    unassignedVars (simplify_clauses cs a) a ≠ [] := by
  obtain ⟨c, hc⟩ : ∃ c, c ∈ simplify_clauses cs a := by
    cases hred : simplify_clauses cs a with
    | nil => rw [hred] at h1; simp at h1
    | cons c rest => exact ⟨c, List.mem_cons_self _ _⟩
  have hcne : c ≠ [] := by
    intro he; subst he
    have hx : (simplify_clauses cs a).any (fun c => c.isEmpty) = true :=
      List.any_eq_true.mpr ⟨[], hc, by simp⟩
    rw [h2] at hx; cases hx
  obtain ⟨l, hl⟩ := List.exists_mem_of_ne_nil c hcne
  intro hnil
  have hx : l.natAbs ∈ unassignedVars (simplify_clauses cs a) a :=
    mem_unassignedVars.mpr ⟨mem_allVars.mpr ⟨c, hc, l, hl, rfl⟩,
      unassigned_of_mem_simplify hc hl⟩
  rw [hnil] at hx; cases hx

theorem unit_var_unassigned {cs : Formula} {a : Assignment} {v : Nat} {b : Bool}
    (hu : find_unit_clause (simplify_clauses cs a) = some (v, b)) :
    getVar a v = none ∧ v ∈ varsOf (simplify_clauses cs a) := by
  rcases find_unit_spec hu with ⟨l, hl, rfl, -⟩
  exact ⟨unassigned_of_mem_simplify hl (List.mem_cons_self _ _),
    mem_varsOf.mpr ⟨[l], hl, l, List.mem_cons_self _ _, rfl⟩⟩

theorem pure_var_unassigned {cs : Formula} {a : Assignment} {v : Nat} {b : Bool}
    (hp : find_pure_literal (simplify_clauses cs a) = some (v, b)) :
    getVar a v = none ∧ v ∈ varsOf (simplify_clauses cs a) := by
  rcases (find_pure_spec hp).1 with ⟨c, hc, l, hl, rfl⟩
  exact ⟨unassigned_of_mem_simplify hc hl, mem_varsOf.mpr ⟨c, hc, l, hl, rfl⟩⟩

theorem choose_var_unassigned {cs : Formula} {a : Assignment}
    (h1 : (simplify_clauses cs a).isEmpty = false)
    (h2 : (simplify_clauses cs a).any (fun c => c.isEmpty) = false) :
    getVar a (choose_variable (simplify_clauses cs a) a) = none ∧
      choose_variable (simplify_clauses cs a) a ∈ varsOf (simplify_clauses cs a) := by
  have hm := choose_variable_mem (unassignedVars_simplify_ne h1 h2)
  rcases mem_unassignedVars.mp hm with ⟨hv, hu⟩
  exact ⟨hu, List.mem_toFinset.mpr hv⟩

theorem freeCount_setVar_lt {cs : Formula} {a : Assignment} {v : Nat} (b : Bool)
    (hv : v ∈ varsOf (simplify_clauses cs a)) (hun : getVar a v = none) :
    freeCount (simplify_clauses cs a) (setVar a v b) < freeCount cs a := by
  have hsub : (varsOf (simplify_clauses cs a)).filter
        (fun w => getVar (setVar a v b) w = none) ⊆
      (varsOf cs).filter (fun w => getVar a w = none) := by
    intro w hw
    rcases Finset.mem_filter.mp hw with ⟨hw1, hw2⟩
    have hwv : w ≠ v := by
      intro he; subst he
      rw [getVar_setVar, if_pos rfl] at hw2; simp at hw2
    rw [getVar_setVar, if_neg hwv] at hw2
    exact Finset.mem_filter.mpr ⟨varsOf_simplify_subset cs a hw1, hw2⟩
  refine Finset.card_lt_card ((Finset.ssubset_iff_of_subset hsub).mpr ⟨v, ?_, ?_⟩)
  · exact Finset.mem_filter.mpr ⟨varsOf_simplify_subset cs a hv, hun⟩
  · intro hmem
    rcases Finset.mem_filter.mp hmem with ⟨-, hx⟩
    rw [getVar_setVar, if_pos rfl] at hx; simp at hx

theorem freeCount_nil_lt (cs : Formula) :
    freeCount cs [] < (varList cs).length + 1 := by
  have hsub : varsOf cs ⊆ (varList cs).toFinset := fun v hv =>
    List.mem_toFinset.mpr (mem_firstVars.mpr (List.mem_toFinset.mp hv))
  calc freeCount cs [] ≤ (varsOf cs).card := Finset.card_filter_le _ _
    _ ≤ ((varList cs).toFinset).card := Finset.card_le_card hsub
    _ ≤ (varList cs).length := List.toFinset_card_le _
    _ < (varList cs).length + 1 := Nat.lt_succ_self _

theorem dpll_isSome : ∀ (fuel : Nat) (cs : Formula) (a : Assignment),
    freeCount cs a < fuel → (dpll fuel cs a).isSome := by
  intro fuel
  induction fuel with
  | zero => intro cs a h; exact absurd h (Nat.not_lt_zero _)
  | succ g ih =>
    intro cs a h
    have hle : freeCount cs a ≤ g := Nat.lt_succ_iff.mp h
    rw [dpll]
    by_cases h1 : (simplify_clauses cs a).isEmpty
    · rw [if_pos h1]; rfl
    · rw [if_neg h1]
      by_cases h2 : (simplify_clauses cs a).any (fun c => c.isEmpty)
      · rw [if_pos h2]; rfl
      · rw [if_neg h2]
        cases hu : find_unit_clause (simplify_clauses cs a) with
        | some vb =>
          obtain ⟨v, b⟩ := vb
          rcases unit_var_unassigned hu with ⟨hun, hv⟩
          exact ih _ _ (lt_of_lt_of_le (freeCount_setVar_lt b hv hun) hle)
        | none =>
          cases hp : find_pure_literal (simplify_clauses cs a) with
          | some vb =>
            obtain ⟨v, b⟩ := vb
            rcases pure_var_unassigned hp with ⟨hun, hv⟩
            exact ih _ _ (lt_of_lt_of_le (freeCount_setVar_lt b hv hun) hle)
          | none =>
            rcases choose_var_unassigned (Bool.not_eq_true _ |>.mp h1)
              (Bool.not_eq_true _ |>.mp h2) with ⟨hun, hv⟩
            have hltT : freeCount (simplify_clauses cs a)
                (setVar a (choose_variable (simplify_clauses cs a) a) true) < g :=
              lt_of_lt_of_le (freeCount_setVar_lt true hv hun) hle
            have hfirst := ih _ _ hltT
            cases hres : dpll g (simplify_clauses cs a)
                (setVar a (choose_variable (simplify_clauses cs a) a) true) with
            | none => rw [hres] at hfirst; simp at hfirst
            | some o =>
              cases o with
              | some r => rfl
              | none =>
                exact ih _ _ (lt_of_lt_of_le (freeCount_setVar_lt false hv hun) hle)

theorem sat_lift {cs : Formula} {a r : Assignment} (hext : Extends a r)
    (hsat : ∀ c' ∈ simplify_clauses cs a, ∃ l ∈ c', litSat r l = true) :
    ∀ c ∈ cs, ∃ l ∈ c, litSat r l = true := by
  intro c hc
  cases hsc : simplify_clause a c with
  | none =>
    rcases List.any_eq_true.mp (simplify_clause_none_iff _ _ |>.mp hsc) with ⟨l, hl, hs⟩
    exact ⟨l, hl, litSat_mono hext hs⟩
  | some c' =>
    rcases hsat c' (mem_simplify_clauses.mpr ⟨c, hc, hsc⟩) with ⟨l, hl, hs⟩
    exact ⟨l, (mem_of_mem_simplify_clause hsc hl).1, hs⟩

theorem dpll_sound_aux : ∀ (fuel : Nat) (cs : Formula) (a r : Assignment),
    dpll fuel cs a = some (some r) →
    Extends a r ∧ ∀ c ∈ cs, ∃ l ∈ c, litSat r l = true := by
  intro fuel
  induction fuel with
  | zero => intro cs a r h; cases h
  | succ g ih =>
    intro cs a r h
    rw [dpll] at h
    by_cases h1 : (simplify_clauses cs a).isEmpty
    · rw [if_pos h1] at h
      obtain rfl : a = r := Option.some_inj.mp (Option.some_inj.mp h)
      refine ⟨extends_refl a, fun c hc => ?_⟩
      have hnone : simplify_clause a c = none :=
        simplify_clauses_nil (List.isEmpty_iff.mp h1) c hc
      rcases List.any_eq_true.mp (simplify_clause_none_iff _ _ |>.mp hnone) with ⟨l, hl, hs⟩
      exact ⟨l, hl, hs⟩
    · rw [if_neg h1] at h
      by_cases h2 : (simplify_clauses cs a).any (fun c => c.isEmpty)
      · rw [if_pos h2] at h
        exact absurd (Option.some_inj.mp h) (by simp)
      · rw [if_neg h2] at h
        cases hu : find_unit_clause (simplify_clauses cs a) with
        | some vb =>
          obtain ⟨v, b⟩ := vb
          rw [hu] at h
          rcases unit_var_unassigned hu with ⟨hun, -⟩
          rcases ih _ _ _ h with ⟨hext', hsat'⟩
          have hext : Extends a r := extends_trans (extends_setVar b hun) hext'
          exact ⟨hext, sat_lift hext hsat'⟩
        | none =>
          rw [hu] at h
          cases hp : find_pure_literal (simplify_clauses cs a) with
          | some vb =>
            obtain ⟨v, b⟩ := vb
            rw [hp] at h
            rcases pure_var_unassigned hp with ⟨hun, -⟩
            rcases ih _ _ _ h with ⟨hext', hsat'⟩
            have hext : Extends a r := extends_trans (extends_setVar b hun) hext'
            exact ⟨hext, sat_lift hext hsat'⟩
          | none =>
            rw [hp] at h
            rcases choose_var_unassigned (Bool.not_eq_true _ |>.mp h1)
              (Bool.not_eq_true _ |>.mp h2) with ⟨hun, -⟩
            cases hres : dpll g (simplify_clauses cs a)
                (setVar a (choose_variable (simplify_clauses cs a) a) true) with
            | none => rw [hres] at h; cases h
            | some o =>
              rw [hres] at h
              cases o with
              | some r0 =>
                have hr : r0 = r := Option.some_inj.mp (Option.some_inj.mp h)
                subst hr
                rcases ih _ _ _ hres with ⟨hext', hsat'⟩
                have hext := extends_trans (extends_setVar true hun) hext'
                exact ⟨hext, sat_lift hext hsat'⟩
              | none =>
                rcases ih _ _ _ h with ⟨hext', hsat'⟩
                have hext := extends_trans (extends_setVar false hun) hext'
                exact ⟨hext, sat_lift hext hsat'⟩

theorem litSatT_assigned {t : Nat → Bool} {a : Assignment} {l : Int} {val : Bool}
    (hag : Agrees t a) (hg : getVar a l.natAbs = some val) :
    litSatT t l = litSat a l := by
  rw [litSatT, litSat, hg, hag _ _ hg]

theorem litSatT_zero (t : Nat → Bool) : litSatT t 0 = false := by
  rw [litSatT]; simp

theorem litSatT_value {t : Nat → Bool} {l : Int} (h : litSatT t l = true) :
    t l.natAbs = decide (0 < l) := by
  rw [litSatT, Bool.or_eq_true, Bool.and_eq_true, Bool.and_eq_true] at h
  rcases h with ⟨h1, h2⟩ | ⟨h1, h2⟩
  · rw [h2, h1]
  · have hneg : l < 0 := of_decide_eq_true h1
    have hd : decide (0 < l) = false := decide_eq_false (by omega)
    rw [hd, Bool.not_eq_true' ] at *
    exact h2

theorem litSatT_congr {t t' : Nat → Bool} {l : Int} (h : t l.natAbs = t' l.natAbs) :
    litSatT t l = litSatT t' l := by
  rw [litSatT, litSatT, h]

theorem sat_simplify_total {cs : Formula} {a : Assignment} {t : Nat → Bool}
    (hag : Agrees t a) (hsat : ∀ c ∈ cs, ∃ l ∈ c, litSatT t l = true) :
    ∀ c' ∈ simplify_clauses cs a, ∃ l ∈ c', litSatT t l = true := by
  intro c' hc'
  rcases mem_simplify_clauses.mp hc' with ⟨c, hc, hsc⟩
  rcases hsat c hc with ⟨l, hl, hs⟩
  cases hg : getVar a l.natAbs with
  | some val =>
    have hla : litSat a l = true := by rw [← litSatT_assigned hag hg]; exact hs
    have hnone : simplify_clause a c = none :=
      simplify_clause_none_iff _ _ |>.mpr (List.any_eq_true.mpr ⟨l, hl, hla⟩)
    rw [hnone] at hsc; cases hsc
  | none =>
    rcases simplify_clause_some hsc with ⟨rfl, -⟩
    exact ⟨l, List.mem_filter.mpr ⟨hl, by simp [hg]⟩, hs⟩

theorem dpll_complete_aux : ∀ (fuel : Nat) (cs : Formula) (a : Assignment) (t : Nat → Bool),
    freeCount cs a < fuel → Agrees t a →
    (∀ c ∈ cs, ∃ l ∈ c, litSatT t l = true) →
    ∃ r, dpll fuel cs a = some (some r) := by
  intro fuel
  induction fuel with
  | zero => intro cs a t h; exact absurd h (Nat.not_lt_zero _)
  | succ g ih =>
    intro cs a t h hag hsat
    have hle : freeCount cs a ≤ g := Nat.lt_succ_iff.mp h
    have hsat' := sat_simplify_total hag hsat
    rw [dpll]
    by_cases h1 : (simplify_clauses cs a).isEmpty
    · rw [if_pos h1]; exact ⟨a, rfl⟩
    · rw [if_neg h1]
      have h2 : (simplify_clauses cs a).any (fun c => c.isEmpty) = false := by
        rw [Bool.eq_false_iff]
        intro hany
        rcases List.any_eq_true.mp hany with ⟨c', hc', hce⟩
        rcases hsat' c' hc' with ⟨l, hl, -⟩
        rw [List.isEmpty_iff.mp hce] at hl
        cases hl
      rw [h2, if_neg (by simp)]
      cases hu : find_unit_clause (simplify_clauses cs a) with
      | some vb =>
        obtain ⟨v, b⟩ := vb
        rcases find_unit_spec hu with ⟨l, hlmem, hv, hb⟩
        rcases unit_var_unassigned hu with ⟨hun, hvv⟩
        rcases hsat' [l] hlmem with ⟨l', hl', hsl⟩
        rcases List.mem_singleton.mp hl' with rfl
        have htv : t v = b := by rw [hv, hb]; exact litSatT_value hsl
        exact ih _ _ t (lt_of_lt_of_le (freeCount_setVar_lt b hvv hun) hle)
          (agrees_setVar hag htv) hsat'
      | none =>
        cases hp : find_pure_literal (simplify_clauses cs a) with
        | some vb =>
          obtain ⟨v, b⟩ := vb
          rcases pure_var_unassigned hp with ⟨hun, hvv⟩
          have hpure := (find_pure_spec hp).2
          have hag' : Agrees (fun w => if w = v then b else t w) (setVar a v b) := by
            intro w x hw
            rw [getVar_setVar] at hw
            show (if w = v then b else t w) = x
            by_cases hvw : w = v
            · rw [if_pos hvw] at hw
              rw [if_pos hvw]
              exact Option.some_inj.mp hw
            · rw [if_neg hvw] at hw
              rw [if_neg hvw]
              exact hag w x hw
          have hsat'' : ∀ c' ∈ simplify_clauses cs a, ∃ l ∈ c',
              litSatT (fun w => if w = v then b else t w) l = true := by
            intro c' hc'
            rcases hsat' c' hc' with ⟨l, hl, hs⟩
            by_cases hlv : l.natAbs = v
            · refine ⟨l, hl, ?_⟩
              have hl0 : l ≠ 0 := by
                intro he; subst he; rw [litSatT_zero] at hs; cases hs
              have hpol : decide (0 < l) = b := hpure c' hc' l hl hlv
              rw [litSatT, hlv, if_pos rfl]
              rcases Int.lt_or_lt_of_ne hl0 with hneg | hpos
              · have hd0 : decide (0 < l) = false := decide_eq_false (by omega)
                have hdn : decide (l < 0) = true := decide_eq_true hneg
                rw [hd0] at hpol
                rw [hdn, ← hpol]
                simp
              · have hd0 : decide (0 < l) = true := decide_eq_true hpos
                rw [hd0] at hpol
                rw [hd0, ← hpol]
                simp
            · exact ⟨l, hl, by rw [← litSatT_congr (by rw [if_neg hlv])]; exact hs⟩
          exact ih _ _ _ (lt_of_lt_of_le (freeCount_setVar_lt b hvv hun) hle) hag' hsat''
        | none =>
          rcases choose_var_unassigned (Bool.not_eq_true _ |>.mp h1) h2 with ⟨hun, hvv⟩
          cases htv : t (choose_variable (simplify_clauses cs a) a) with
          | true =>
            rcases ih _ _ t (lt_of_lt_of_le (freeCount_setVar_lt true hvv hun) hle)
              (agrees_setVar hag htv) hsat' with ⟨r, hr⟩
            rw [hr]
            exact ⟨r, rfl⟩
          | false =>
            have hfirst := dpll_isSome g _ _
              (lt_of_lt_of_le (freeCount_setVar_lt true hvv hun) hle)
            cases hres : dpll g (simplify_clauses cs a)
                (setVar a (choose_variable (simplify_clauses cs a) a) true) with
            | none => rw [hres] at hfirst; simp at hfirst
            | some o =>
              cases o with
              | some r0 => exact ⟨r0, rfl⟩
              | none =>
                rcases ih _ _ t (lt_of_lt_of_le (freeCount_setVar_lt false hvv hun) hle)
                  (agrees_setVar hag htv) hsat' with ⟨r, hr⟩
                exact ⟨r, hr⟩

theorem mem_allBitLists : ∀ (n : Nat) (bs : List Bool), bs.length = n →
    bs ∈ allBitLists n := by
  intro n
  induction n with
  | zero =>
    intro bs h
    rw [List.length_eq_zero] at h
    subst h
    simp [allBitLists]
  | succ m ih =>
    intro bs h
    cases bs with
    | nil => simp at h
    | cons x rest =>
      have hr : rest.length = m := by simpa using h
      rw [allBitLists]
      apply List.mem_flatten.mpr
      refine ⟨[true :: rest, false :: rest], List.mem_map_of_mem _ (ih rest hr), ?_⟩
      cases x with
      | true => exact List.mem_cons_self _ _
      | false => exact List.mem_cons_of_mem _ (List.mem_cons_self _ _)

theorem length_allBitLists : ∀ n : Nat, (allBitLists n).length = 2 ^ n := by
  intro n
  induction n with
  | zero => rfl
  | succ m ih =>
    rw [allBitLists, List.length_flatten, List.map_map]
    have hconst : List.map (List.length ∘ fun bs => [true :: bs, false :: bs])
        (allBitLists m) = List.map (fun _ => 2) (allBitLists m) :=
      List.map_congr_left (fun _ _ => rfl)
    rw [hconst, List.map_const', List.sum_replicate, smul_eq_mul, ih, pow_succ]

theorem tOf_range (r : Assignment) (v : Nat) (h1 : 1 ≤ v) (h2 : v ≤ 6) :
    tOf ((List.range 6).map (fun i => (getVar r (i + 1)).getD false)) v =
      (getVar r v).getD false := by
  have hv : v - 1 < 6 := by omega
  rw [tOf, List.getD_eq_getElem?_getD, List.getElem?_map, List.getElem?_range hv]
  have hvv : v - 1 + 1 = v := by omega
  rw [Option.map_some', Option.getD_some, hvv]

theorem choose_variable_spec (f : Formula) (b : Assignment) :
    (unassignedVars f b = [] → choose_variable f b = 1) ∧
    (unassignedVars f b ≠ [] →
      choose_variable f b ∈ unassignedVars f b ∧
      getVar b (choose_variable f b) = none ∧
      (∀ w ∈ unassignedVars f b,
        (unassignedVars f b).count w ≤ (unassignedVars f b).count (choose_variable f b)) ∧
      ∃ pre post, firstVars (unassignedVars f b) = pre ++ choose_variable f b :: post ∧
        ∀ w ∈ pre, (unassignedVars f b).count w <
          (unassignedVars f b).count (choose_variable f b)) := by
  constructor
  · intro h
    rw [choose_variable, h]
    simp [firstVars, firstVarsAux]
  · intro h
    cases hf : firstVars (unassignedVars f b) with
    | nil => exact absurd (firstVars_eq_nil_iff.mp hf) h
    | cons k ks =>
      have hch : choose_variable f b = pickMax (unassignedVars f b) k ks := by
        rw [choose_variable, hf]
      rw [hch]
      rcases pickMax_spec (unassignedVars f b) ks k with ⟨pre, post, hdec, hpre, hpost⟩
      have hvmem : pickMax (unassignedVars f b) k ks ∈ unassignedVars f b := by
        apply mem_firstVars.mp
        rw [hf]
        exact pickMax_mem _ _ _
      refine ⟨hvmem, (mem_unassignedVars.mp hvmem).2, ?_, pre, post, ?_, hpre⟩
      · intro w hw
        have hwf := mem_firstVars.mpr hw
        rw [hf, hdec] at hwf
        rcases List.mem_append.mp hwf with hwp | hwv
        · exact le_of_lt (hpre w hwp)
        · rcases List.mem_cons.mp hwv with rfl | hwp
          · exact le_refl _
          · exact hpost w hwp
      · exact hdec

theorem foldl_pStep_const : ∀ (lines : List (List Char)) (nv : Int),
    (∀ line ∈ lines, startsChar (pstrip line) 'p' = false) →
    lines.foldl pStep nv = nv := by
  intro lines
  induction lines with
  | nil => intro nv _; rfl
  | cons line rest ih =>
    intro nv hp
    rw [List.foldl_cons]
    have hstep : pStep nv line = nv := by
      rw [pStep]
      by_cases hb : ((pstrip line).isEmpty || startsChar (pstrip line) 'c') = true
      · rw [if_pos hb]
      · rw [if_neg hb, hp line (List.mem_cons_self _ _)]
        simp
    rw [hstep]
    exact ih nv (fun l hl => hp l (List.mem_cons_of_mem _ hl))

theorem parseLines_ok : ∀ (lines : List (List Char)) (acc : List (List Int)) (nv : Int),
    (∀ line ∈ lines, goodLine line = true) →
    ∃ cs, parseLines lines acc nv = .ok (cs, lines.foldl pStep nv) := by
  intro lines
  induction lines with
  | nil => intro acc nv _; exact ⟨acc, rfl⟩
  | cons line rest ih =>
    intro acc nv hgood
    have hgl := hgood line (List.mem_cons_self _ _)
    have hrest := fun l hl => hgood l (List.mem_cons_of_mem _ hl)
    rw [parseLines, List.foldl_cons, pStep]
    by_cases hb : ((pstrip line).isEmpty || startsChar (pstrip line) 'c') = true
    · rw [if_pos hb, if_pos hb]
      exact ih acc nv hrest
    · rw [if_neg hb, if_neg hb]
      rw [goodLine, if_neg hb] at hgl
      by_cases hp : startsChar (pstrip line) 'p' = true
      · rw [if_pos hp, if_pos hp]
        rw [if_pos hp] at hgl
        rw [goodProblemLine, Bool.and_eq_true, Bool.and_eq_true] at hgl
        obtain ⟨⟨hlen, htag⟩, hint⟩ := hgl
        have h4 : (pysplit (pstrip line)).length = 4 := eq_of_beq hlen
        have hcond : ((pysplit (pstrip line)).length != 4
            || !(decide ((pysplit (pstrip line)).getD 1 [] = ['c', 'n', 'f']))) = false := by
          rw [h4, htag]
          rfl
        simp only [hcond, Bool.false_eq_true, if_false]
        cases hpi : pint ((pysplit (pstrip line)).getD 2 []) with
        | none => rw [hpi] at hint; simp at hint
        | some n => exact ih acc n hrest
      · rw [if_neg hp, if_neg hp]
        rw [if_neg hp, goodClauseLine] at hgl
        cases hm : List.mapM pint (pysplit (pstrip line)) with
        | none => rw [hm] at hgl; cases hgl
        | some lits =>
          rw [hm] at hgl
          have hlast : decide (lits.getLast? = some 0) = true := by simpa using hgl
          rcases ih (acc ++ [lits.dropLast]) nv hrest with ⟨cs, hcs⟩
          refine ⟨cs, ?_⟩
          show (if decide (lits.getLast? = some 0) = true
              then parseLines rest (acc ++ [lits.dropLast]) nv
              else Except.error ParseError.clauseNotTerminated) =
            Except.ok (cs, List.foldl pStep nv rest)
          rw [if_pos hlast]
          exact hcs

/-- C1.  Soundness of solve: whenever `solve` returns an assignment rather
than UNSAT, every clause of the original formula contains a literal whose
variable is assigned with the matching polarity under that assignment. -/
theorem solve_sound (clauses : Formula) (r : Assignment)
    (h : solve clauses = some (some r)) :
    ∀ c ∈ clauses, ∃ l ∈ c, litSat r l = true :=
  (dpll_sound_aux _ _ _ _ h).2

theorem solve_sound_witness :
    solve [[1], [-1, 2]] = some (some [(1, true), (2, true)]) ∧
      ∀ c ∈ [([1] : List Int), [-1, 2]], ∃ l ∈ c, litSat [(1, true), (2, true)] l = true :=
  ⟨by decide, solve_sound [[1], [-1, 2]] [(1, true), (2, true)] (by decide)⟩

/-- C3.  Termination: `solve` runs `dpll` with fuel one more than the number
of distinct variables of the formula, and that recursion depth is never
exhausted on any input, because every recursive call strictly shrinks the set
of unassigned variables of its clause list. -/
theorem solve_terminates (clauses : Formula) : (solve clauses).isSome = true :=
  dpll_isSome _ _ _ (freeCount_nil_lt clauses)

/-- C4.  Simplifier contract: the code's `simplify_clauses` agrees with the
spec's description on every formula and assignment — exactly the clauses with
a true literal are dropped, surviving clauses keep exactly their literals on
unassigned variables, verbatim and in order, and a clause that becomes empty
is kept. -/
theorem simplify_clauses_meets_contract (clauses : Formula) (a : Assignment) :
    simplify_clauses clauses a = specSimplify clauses a := by
  induction clauses with
  | nil => rfl
  | cons c rest ih =>
    show List.filterMap (simplify_clause a) (c :: rest) = specSimplify (c :: rest) a
    rw [List.filterMap_cons, specSimplify, List.filter_cons]
    by_cases hany : c.any (fun l => litSat a l) = true
    · have hnone : simplify_clause a c = none := simplify_clause_none_iff _ _ |>.mpr hany
      simp only [hnone, hany, Bool.not_true, Bool.false_eq_true, if_false]
      exact ih
    · have hfalse : c.any (fun l => litSat a l) = false := Bool.not_eq_true _ |>.mp hany
      have hsome : simplify_clause a c =
          some (c.filter (fun l => (getVar a l.natAbs).isNone)) := by
        rw [simplify_clause_eq, hfalse]
        simp
      simp only [hsome, hfalse, Bool.not_false, if_true, List.map_cons]
      exact congr (congrArg List.cons rfl) ih

/-- C5.  The assignment is the only semantically relevant state threaded
through the recursion: the search as implemented (each recursive call gets
the reduced clause list of its caller) returns, on every fuel, formula and
assignment, exactly what the spec's formulation returns, in which every
recursive call re-simplifies the unchanged original formula under the
cumulative assignment. -/
theorem dpll_state_is_assignment : ∀ (fuel : Nat) (f : Formula) (a : Assignment),
    dpll fuel f a = dpllSpec fuel f a := by
  intro fuel
  induction fuel with
  | zero => intro f a; rfl
  | succ g ih =>
    intro f a
    rw [dpll, dpllSpec]
    by_cases h1 : (simplify_clauses f a).isEmpty
    · rw [if_pos h1, if_pos h1]
    · rw [if_neg h1, if_neg h1]
      by_cases h2 : (simplify_clauses f a).any (fun c => c.isEmpty)
      · rw [if_pos h2, if_pos h2]
      · rw [if_neg h2, if_neg h2]
        cases hu : find_unit_clause (simplify_clauses f a) with
        | some vb =>
          obtain ⟨v, b⟩ := vb
          rcases unit_var_unassigned hu with ⟨hun, -⟩
          show dpll g (simplify_clauses f a) (setVar a v b) = dpllSpec g f (setVar a v b)
          rw [dpll_drop_simplify (extends_setVar b hun) g f, ih f]
        | none =>
          cases hp : find_pure_literal (simplify_clauses f a) with
          | some vb =>
            obtain ⟨v, b⟩ := vb
            rcases pure_var_unassigned hp with ⟨hun, -⟩
            show dpll g (simplify_clauses f a) (setVar a v b) = dpllSpec g f (setVar a v b)
            rw [dpll_drop_simplify (extends_setVar b hun) g f, ih f]
          | none =>
            rcases choose_var_unassigned (Bool.not_eq_true _ |>.mp h1)
              (Bool.not_eq_true _ |>.mp h2) with ⟨hun, -⟩
            show (match dpll g (simplify_clauses f a)
                (setVar a (choose_variable (simplify_clauses f a) a) true) with
              | some (some r) => some (some r)
              | some none => dpll g (simplify_clauses f a)
                  (setVar a (choose_variable (simplify_clauses f a) a) false)
              | none => none) =
              (match dpllSpec g f
                  (setVar a (choose_variable (simplify_clauses f a) a) true) with
              | some (some r) => some (some r)
              | some none => dpllSpec g f
                  (setVar a (choose_variable (simplify_clauses f a) a) false)
              | none => none)
            rw [dpll_drop_simplify (extends_setVar true hun) g f,
              dpll_drop_simplify (extends_setVar false hun) g f, ih f, ih f]

/-- C7.  Idempotence of simplification: re-simplifying an already reduced
formula under the same assignment returns it unchanged. -/
theorem simplify_clauses_idempotent (clauses : Formula) (a : Assignment) :
    simplify_clauses (simplify_clauses clauses a) a = simplify_clauses clauses a :=
  simplify_clauses_comp (extends_refl a) clauses

/-- C2.  Completeness on small instances: on every formula over variables
1..6, `solve` returns an assignment exactly when some of the 2 ^ 6 total
assignments enumerated by `allBitLists 6` satisfies every clause, and returns
UNSAT exactly when none does. -/
theorem solve_complete_small (clauses : Formula)
    (hvars : ∀ c ∈ clauses, ∀ l ∈ c, l.natAbs ≤ 6) :
    ((∃ r, solve clauses = some (some r)) ↔
      ∃ bits ∈ allBitLists 6, ∀ c ∈ clauses, ∃ l ∈ c, litSatT (tOf bits) l = true) ∧
    (solve clauses = some none ↔
      ¬ ∃ bits ∈ allBitLists 6, ∀ c ∈ clauses, ∃ l ∈ c, litSatT (tOf bits) l = true) := by
  have hterm : (solve clauses).isSome = true := dpll_isSome _ _ _ (freeCount_nil_lt clauses)
  have hiff : (∃ r, solve clauses = some (some r)) ↔
      ∃ bits ∈ allBitLists 6, ∀ c ∈ clauses, ∃ l ∈ c, litSatT (tOf bits) l = true := by
    constructor
    · rintro ⟨r, hr⟩
      have hsat := (dpll_sound_aux _ _ _ _ hr).2
      refine ⟨(List.range 6).map (fun i => (getVar r (i + 1)).getD false),
        mem_allBitLists 6 _ (by simp), ?_⟩
      intro c hc
      rcases hsat c hc with ⟨l, hl, hs⟩
      refine ⟨l, hl, ?_⟩
      cases hval : getVar r l.natAbs with
      | none => rw [litSat, hval] at hs; cases hs
      | some val =>
        have hne : l ≠ 0 := by
          intro he
          subst he
          rw [litSat, hval] at hs
          simp at hs
        have hge : 1 ≤ l.natAbs := Int.natAbs_pos.mpr hne
        have hle6 : l.natAbs ≤ 6 := hvars c hc l hl
        rw [litSatT, tOf_range r l.natAbs hge hle6, hval, Option.getD_some]
        rw [litSat, hval] at hs
        exact hs
    · rintro ⟨bits, -, hsatb⟩
      have hag : Agrees (tOf bits) [] := by
        intro v x hv
        simp [getVar] at hv
      exact dpll_complete_aux ((varList clauses).length + 1) clauses [] (tOf bits)
        (freeCount_nil_lt clauses) hag hsatb
  refine ⟨hiff, ?_, ?_⟩
  · intro hunsat hex
    rcases hiff.mpr hex with ⟨r, hr⟩
    rw [hunsat] at hr
    simp at hr
  · intro hnex
    cases hs : solve clauses with
    | none => rw [hs] at hterm; simp at hterm
    | some o =>
      cases o with
      | none => rfl
      | some r => exact absurd (hiff.mp ⟨r, hs⟩) hnex

theorem solve_complete_small_witness :
    ((∃ r, solve [[1], [-1]] = some (some r)) ↔
      ∃ bits ∈ allBitLists 6, ∀ c ∈ [([1] : List Int), [-1]],
        ∃ l ∈ c, litSatT (tOf bits) l = true) ∧
    (solve [[1], [-1]] = some none ↔
      ¬ ∃ bits ∈ allBitLists 6, ∀ c ∈ [([1] : List Int), [-1]],
        ∃ l ∈ c, litSatT (tOf bits) l = true) :=
  solve_complete_small [[1], [-1]] (by decide)

/-- C6.  Branching step: with no unit clause and no pure literal, the search
branches on the variable `choose_variable` picks — the unassigned variable of
maximal occurrence count in the reduced formula, first traversal position
winning ties (strict greater-than replacement), variable 1 when no unassigned
variable occurs — trying true before false and returning the first recursive
result that is not UNSAT, UNSAT only when both branches are. -/
theorem branching_step_spec (fuel : Nat) (clauses : Formula) (a : Assignment)
    (h1 : (simplify_clauses clauses a).isEmpty = false)
    (h2 : (simplify_clauses clauses a).any (fun c => c.isEmpty) = false)
    (h3 : find_unit_clause (simplify_clauses clauses a) = none)
    (h4 : find_pure_literal (simplify_clauses clauses a) = none) :
    (∀ (f : Formula) (b : Assignment),
      (unassignedVars f b = [] → choose_variable f b = 1) ∧
      (unassignedVars f b ≠ [] →
        choose_variable f b ∈ unassignedVars f b ∧
        getVar b (choose_variable f b) = none ∧
        (∀ w ∈ unassignedVars f b, (unassignedVars f b).count w ≤
          (unassignedVars f b).count (choose_variable f b)) ∧
        ∃ pre post, firstVars (unassignedVars f b) = pre ++ choose_variable f b :: post ∧
          ∀ w ∈ pre, (unassignedVars f b).count w <
            (unassignedVars f b).count (choose_variable f b))) ∧
    dpll (fuel + 1) clauses a =
      (match dpll fuel (simplify_clauses clauses a)
          (setVar a (choose_variable (simplify_clauses clauses a) a) true) with
        | some (some r) => some (some r)
        | some none => dpll fuel (simplify_clauses clauses a)
            (setVar a (choose_variable (simplify_clauses clauses a) a) false)
        | none => none) := by
  refine ⟨choose_variable_spec, ?_⟩
  rw [dpll,
    if_neg (show ¬((simplify_clauses clauses a).isEmpty = true) by rw [h1]; simp),
    if_neg (show ¬(((simplify_clauses clauses a).any (fun c => c.isEmpty)) = true) by
      rw [h2]; simp),
    h3, h4]

theorem branching_step_spec_witness :
    (∀ (f : Formula) (b : Assignment),
      (unassignedVars f b = [] → choose_variable f b = 1) ∧
      (unassignedVars f b ≠ [] →
        choose_variable f b ∈ unassignedVars f b ∧
        getVar b (choose_variable f b) = none ∧
        (∀ w ∈ unassignedVars f b, (unassignedVars f b).count w ≤
          (unassignedVars f b).count (choose_variable f b)) ∧
        ∃ pre post, firstVars (unassignedVars f b) = pre ++ choose_variable f b :: post ∧
          ∀ w ∈ pre, (unassignedVars f b).count w <
            (unassignedVars f b).count (choose_variable f b))) ∧
    dpll 5 branchFormula [] =
      (match dpll 4 (simplify_clauses branchFormula [])
          (setVar [] (choose_variable (simplify_clauses branchFormula []) []) true) with
        | some (some r) => some (some r)
        | some none => dpll 4 (simplify_clauses branchFormula [])
            (setVar [] (choose_variable (simplify_clauses branchFormula []) []) false)
        | none => none) :=
  branching_step_spec 4 branchFormula [] (by decide) (by decide) (by decide) (by decide)

/-- C8.  No cross-branch leakage: when the true branch of a split fails, the
false branch is run on the pre-branch assignment extended with only its own
choice; no binding made inside the failed branch is visible to it. -/
theorem branching_no_cross_leak (fuel : Nat) (clauses : Formula) (a : Assignment)
    (h1 : (simplify_clauses clauses a).isEmpty = false)
    (h2 : (simplify_clauses clauses a).any (fun c => c.isEmpty) = false)
    (h3 : find_unit_clause (simplify_clauses clauses a) = none)
    (h4 : find_pure_literal (simplify_clauses clauses a) = none)
    (hfail : dpll fuel (simplify_clauses clauses a)
        (setVar a (choose_variable (simplify_clauses clauses a) a) true) = some none) :
    dpll (fuel + 1) clauses a =
      dpll fuel (simplify_clauses clauses a)
        (setVar a (choose_variable (simplify_clauses clauses a) a) false) ∧
    ∀ w, getVar (setVar a (choose_variable (simplify_clauses clauses a) a) false) w =
      if w = choose_variable (simplify_clauses clauses a) a then some false
      else getVar a w := by
  constructor
  · rw [dpll,
      if_neg (show ¬((simplify_clauses clauses a).isEmpty = true) by rw [h1]; simp),
      if_neg (show ¬(((simplify_clauses clauses a).any (fun c => c.isEmpty)) = true) by
        rw [h2]; simp),
      h3, h4, hfail]
  · intro w
    exact getVar_setVar a _ false w

theorem branching_no_cross_leak_witness :
    (dpll 6 branchFormula [] =
      dpll 5 (simplify_clauses branchFormula [])
        (setVar [] (choose_variable (simplify_clauses branchFormula []) []) false) ∧
    ∀ w, getVar (setVar [] (choose_variable (simplify_clauses branchFormula []) []) false) w =
      if w = choose_variable (simplify_clauses branchFormula []) [] then some false
      else getVar [] w) :=
  branching_no_cross_leak 5 branchFormula [] (by decide) (by decide) (by decide)
    (by decide) (by decide)

/-- C9 (amended).  Any input all of whose lines are individually well formed
parses successfully, with no condition relating the declared clause count to
the number of clause lines; and the parse emits no diagnostics at all, so a
clause-count mismatch is silently ignored rather than reported. -/
theorem parse_dimacs_ignores_clause_count (lines : List (List Char))
    (hgood : ∀ line ∈ lines, goodLine line = true) :
    (∃ cs nv, parse_dimacs lines = .ok (cs, nv)) ∧ parse_warnings lines = [] := by
  rcases parseLines_ok lines [] 0 hgood with ⟨cs, hcs⟩
  exact ⟨⟨cs, lines.foldl pStep 0, hcs⟩, rfl⟩

theorem parse_dimacs_ignores_clause_count_witness :
    (∃ cs nv, parse_dimacs mismatchLines = .ok (cs, nv)) ∧
      parse_warnings mismatchLines = [] :=
  parse_dimacs_ignores_clause_count mismatchLines (by decide)

/-- C9, counterexample to the claim as stated: on an input declaring 5
clauses but containing 2, parsing succeeds — and the warning output is empty,
so the mismatch is not reported as a warning (nothing is reported at all). -/
theorem clause_count_mismatch_unreported_cx :
    parse_dimacs mismatchLines = .ok ([[1, 2], [-1]], 2) ∧
      parse_warnings mismatchLines = [] :=
  ⟨by decide, rfl⟩

/-- C10 (amended).  A problem line is optional — an input whose lines are
individually well formed parses successfully, the returned num_vars being the
declared count of the last problem line and 0 when no line starts with p. -/
theorem parse_dimacs_problem_line_optional (lines : List (List Char))
    (hgood : ∀ line ∈ lines, goodLine line = true) :
    (∃ cs, parse_dimacs lines = .ok (cs, declaredVarsSpec lines)) ∧
    ((∀ line ∈ lines, startsChar (pstrip line) 'p' = false) →
      declaredVarsSpec lines = 0) := by
  constructor
  · exact parseLines_ok lines [] 0 hgood
  · intro hp
    exact foldl_pStep_const lines 0 hp

theorem parse_dimacs_problem_line_optional_witness :
    ((∃ cs, parse_dimacs twoPLines = .ok (cs, declaredVarsSpec twoPLines)) ∧
      ((∀ line ∈ twoPLines, startsChar (pstrip line) 'p' = false) →
        declaredVarsSpec twoPLines = 0)) :=
  parse_dimacs_problem_line_optional twoPLines (by decide)

/-- C10, counterexample to the claim as stated: an input with no line
starting with p on which parsing raises (its clause line lacks the
terminating 0), so absence of a problem line alone does not make parsing
succeed. -/
theorem parse_no_problem_line_can_fail_cx :
    (∀ line ∈ noZeroLines, startsChar (pstrip line) 'p' = false) ∧
      parse_dimacs noZeroLines = .error ParseError.clauseNotTerminated :=
  ⟨by decide, by decide⟩

end SatSolver
